import Mathlib

/-!
# dragonfly2 stress test: the event controller

A shallow embedding of `controller.go`: the completion counter (`Cache`), the
event filter (`FilterEvent`), the enqueue handler (`AddEvent`), the reconciler
(`reconcileEvent`), the queue worker step (`processNextEvent`) and the exit
path of `Run`, followed by the properties proved about them.

Conventions of the embedding.

* `int32` values are integers kept in range by `wrapInt32` (Go wraps on signed
  overflow).
* A Go value of type `interface{}` is an `Obj`; a pointer is an `Option`
  (`none` is the nil pointer).
* A Go panic is the result `none` of a function returning `Option`.
* `cancelFunc` is not executed; the controller counts how many times it has
  been invoked (`cancelCalls`).
* Every method call on the work queue is appended to the queue's `calls` log.
-/

namespace StressTest

/-! ## Constants -/

/-- Constant `EventNameSpace` of `controller.go`. -/
def EventNameSpace : String := "default"

/-- Constant `ImagePulled` of `controller.go`. -/
def ImagePulled : String := "Pulled"

/-! ## 32-bit integers and strings -/

/-- The value of an `int32` after a computation whose mathematical result is `x`
(two's complement wrap-around). -/
def wrapInt32 (x : Int) : Int := (x + 2147483648) % 4294967296 - 2147483648

/-- Go `strings.Contains s substr`: `substr` occurs in `s` as a contiguous block.
The empty string occurs in every string. -/
def Contains (s substr : String) : Bool :=
  s.data.tails.any (fun t => substr.data.isPrefixOf t)

/-- The values an `int32` can hold. -/
def InRange32 (x : Int) : Prop := -2147483648 ≤ x ∧ x < 2147483648

/-! ## The completion counter -/

/-- Type `Cache` of `controller.go`. The mutex is not represented: every method
holds it for its whole body, so the methods are atomic steps. -/
structure Cache where
  Actual : Int
deriving DecidableEq, Repr

/-- Method `Cache.Get`: the value read, the cache is not modified. -/
def Cache.Get (c : Cache) : Int := c.Actual

/-- Method `Cache.Incr`: `c.Actual += 1` on an `int32`. -/
def Cache.Incr (c : Cache) : Cache := { Actual := wrapInt32 (c.Actual + 1) }

/-- A call of one of the two methods of `Cache`. -/
inductive CacheOp where
  | Get
  | Incr
deriving DecidableEq, Repr

/-- One method call: the new cache and the value returned, if any. -/
def CacheOp.apply (c : Cache) : CacheOp → Cache × Option Int
  | CacheOp.Get => (c, some c.Get)
  | CacheOp.Incr => (c.Incr, none)

/-- The cache after a sequence of method calls. -/
def runCache : List CacheOp → Cache → Cache
  | [], c => c
  | op :: ops, c => runCache ops (op.apply c).1

/-- Number of `Incr` calls in a sequence. -/
def countIncr (ops : List CacheOp) : Nat := ops.count CacheOp.Incr

/-! ## Events and dynamically typed values -/

/-- The fields of a Kubernetes event (`events/v1.Event` and
`events/v1beta1.Event` alike) that matter here: the event's own metadata name
and namespace, its reason, and the name of the object it is about
(`Regarding.Name`). -/
structure Event where
  Name : String
  Namespace : String
  Reason : String
  RegardingName : String
deriving DecidableEq, Repr

/-- A Go value of type `interface{}` as handed to the handlers and stored in the
queue, by dynamic type. -/
inductive Obj where
  /-- A `*eventv1.Event`; `none` is the nil pointer of that type. -/
  | eventV1 (p : Option Event)
  /-- A `*eventbetav1.Event`; `none` is the nil pointer of that type. -/
  | eventBetaV1 (p : Option Event)
  /-- A `string`. -/
  | str (s : String)
  /-- A value of any other dynamic type, the nil interface included. -/
  | other
deriving DecidableEq, Repr

/-- Errors produced by the program. -/
inductive Error where
  /-- The lister has no event of that name. -/
  | notFound (name : String)
  /-- The error built by `processNextEvent`: "fail to sync key: err, requeuing". -/
  | failToSync (key : String) (cause : Error)
  /-- The error built by `Run`: "failed to wait for caches to sync". -/
  | cacheSync
deriving DecidableEq, Repr

/-! ## The work queue -/

/-- A method call on the queue, as recorded in the log. -/
inductive QueueCall where
  | Add (item : Obj)
  | AddRateLimited (item : Obj)
  | Get
  | Done (item : Obj)
  | Forget (item : Obj)
  | ShutDown
  | ShuttingDown
deriving DecidableEq, Repr

/-- Modelled from the spec: the Dispatch Queue is the client-go rate limiting
work queue, whose code is not among the sources. `queue` holds the items ready
for `Get` in order, `dirty` the items that need processing, `processing` the
items handed out and not yet done, `waiting` the items scheduled by the rate
limiter for a delayed add, `failures` one entry for each rate-limited requeue
not yet forgotten, and `calls` the log of method calls. -/
structure Queue where
  queue : List Obj
  dirty : List Obj
  processing : List Obj
  shuttingDown : Bool
  waiting : List Obj
  failures : List Obj
  calls : List QueueCall
deriving DecidableEq, Repr

/-- The queue built by `NewController`. -/
def Queue.empty : Queue :=
  { queue := [], dirty := [], processing := [], shuttingDown := false,
    waiting := [], failures := [], calls := [] }

/-- Modelled from the spec: `add(key)`. Nothing is added while shutting down;
a key already pending is not added again; a key being processed is only marked
dirty. -/
def Queue.Add (q : Queue) (item : Obj) : Queue :=
  let q1 := { q with calls := q.calls ++ [QueueCall.Add item] }
  if q1.shuttingDown then q1
  else if item ∈ q1.dirty then q1
  else
    let q2 := { q1 with dirty := item :: q1.dirty }
    if item ∈ q2.processing then q2
    else { q2 with queue := q2.queue ++ [item] }

/-- Modelled from the spec: the rate-limited add. The failure is recorded with
the limiter and the item is scheduled for an add after the backoff delay. -/
def Queue.AddRateLimited (q : Queue) (item : Obj) : Queue :=
  { q with calls := q.calls ++ [QueueCall.AddRateLimited item],
           failures := item :: q.failures,
           waiting := q.waiting ++ [item] }

/-- Modelled from the spec: number of rate-limited requeues recorded for an item. -/
def Queue.NumRequeues (q : Queue) (item : Obj) : Nat := q.failures.count item

/-- Modelled from the spec: `get() -> (key, shutdownFlag)`. The result is `none`
when the call blocks (nothing is ready and the queue is not shutting down);
an empty queue that is shutting down returns the nil item with the flag set. -/
def Queue.Get (q : Queue) : Option (Obj × Bool × Queue) :=
  match q.queue with
  | [] =>
    if q.shuttingDown then
      some (Obj.other, true, { q with calls := q.calls ++ [QueueCall.Get] })
    else none
  | item :: rest =>
    some (item, false,
      { q with queue := rest, processing := item :: q.processing,
               dirty := q.dirty.filter (fun x => decide (x ≠ item)),
               calls := q.calls ++ [QueueCall.Get] })

/-- Modelled from the spec: `done(key)`. The item stops being processed; when it
was marked dirty meanwhile it becomes ready again. -/
def Queue.Done (q : Queue) (item : Obj) : Queue :=
  let q1 := { q with calls := q.calls ++ [QueueCall.Done item],
                     processing := q.processing.filter (fun x => decide (x ≠ item)) }
  if item ∈ q1.dirty then { q1 with queue := q1.queue ++ [item] } else q1

/-- Modelled from the spec: `forget(key)` clears the limiter's record of the item. -/
def Queue.Forget (q : Queue) (item : Obj) : Queue :=
  { q with calls := q.calls ++ [QueueCall.Forget item],
           failures := q.failures.filter (fun x => decide (x ≠ item)) }

/-- Modelled from the spec: `shutdown()` sets the shutting-down flag. -/
def Queue.ShutDown (q : Queue) : Queue :=
  { q with calls := q.calls ++ [QueueCall.ShutDown], shuttingDown := true }

/-- Modelled from the spec: the query `ShuttingDown()` of the queue interface reads
the flag and changes nothing but the log. -/
def Queue.ShuttingDown (q : Queue) : Bool × Queue :=
  (q.shuttingDown, { q with calls := q.calls ++ [QueueCall.ShuttingDown] })

/-! ## The controller -/

/-- A lister restricted to namespace `EventNameSpace`: `Get name` gives the event
or fails with a not-found error (`none`). -/
abbrev Store := String → Option Event

/-- The contents of the two informer caches at the time of a call. -/
structure Informers where
  EventInformer : Store
  BetaEventInformer : Store

/-- The fields of `Controller` that the modelled methods read or write.
`cancelCalls` counts the invocations of `cancelFunc`. -/
structure Controller where
  cancelCalls : Nat
  Desired : Int
  cache : Cache
  BetaEvent : Bool
  eventQueue : Queue
deriving DecidableEq, Repr

/-- The controller as `NewController` leaves it. -/
def Controller.new (desired : Int) (betaEvent : Bool) : Controller :=
  { cancelCalls := 0, Desired := desired, cache := { Actual := 0 },
    BetaEvent := betaEvent, eventQueue := Queue.empty }

/-- The value of dynamic type `*eventbetav1.Event` (when `betaEvent` is set) or
`*eventv1.Event` (otherwise) holding the pointer `p`. -/
def selectedVariant (betaEvent : Bool) (p : Option Event) : Obj :=
  if betaEvent then Obj.eventBetaV1 p else Obj.eventV1 p

/-- Method `Controller.FilterEvent`. The result is `none` when the call panics
(a nil pointer of the selected type is dereferenced). The controller is only
read. -/
def FilterEvent (c : Controller) (obj : Obj) : Option Bool :=
  if c.BetaEvent then
    match obj with
    | Obj.eventBetaV1 p =>
      match p with
      | none => none
      | some betaEvent =>
        if betaEvent.Namespace ≠ EventNameSpace then some false else some true
    | _ => some false
  else
    match obj with
    | Obj.eventV1 p =>
      match p with
      | none => none
      | some event =>
        if event.Namespace ≠ EventNameSpace then some false else some true
    | _ => some false

/-- Method `Controller.enqueueEvent`. -/
def enqueueEvent (c : Controller) (name : String) : Controller :=
  { c with eventQueue := c.eventQueue.Add (Obj.str name) }

/-- Method `Controller.AddEvent`. The type assertion is unchecked: when it fails
the pointer is nil and reading its `Name` panics (`none`). -/
def AddEvent (c : Controller) (obj : Obj) : Option Controller :=
  if c.BetaEvent then
    match obj with
    | Obj.eventBetaV1 (some betaEvent) => some (enqueueEvent c betaEvent.Name)
    | _ => none
  else
    match obj with
    | Obj.eventV1 (some event) => some (enqueueEvent c event.Name)
    | _ => none

/-- The common tail of `reconcileEvent`, after `reason` and `eventName` are set. -/
def reconcileFound (Deployment : String) (c : Controller) (reason eventName : String) :
    Controller × Option Error :=
  if reason = ImagePulled ∧ Contains eventName Deployment = true then
    let c1 := { c with cache := c.cache.Incr }
    if c1.cache.Get = c1.Desired then
      ({ c1 with cancelCalls := c1.cancelCalls + 1 }, none)
    else (c1, none)
  else (c, none)

/-- Method `Controller.reconcileEvent`; `Deployment` is the global variable of
`deployment.go`. The result is the controller after the call and the error
returned (`none` is Go nil). -/
def reconcileEvent (Deployment : String) (inf : Informers) (c : Controller) (name : String) :
    Controller × Option Error :=
  if c.BetaEvent then
    match inf.BetaEventInformer name with
    | none => (c, some (Error.notFound name))
    | some event => reconcileFound Deployment c event.Reason event.Name
  else
    match inf.EventInformer name with
    | none => (c, some (Error.notFound name))
    | some event => reconcileFound Deployment c event.Reason event.Name

/-- Result of `processNextEvent`: the value returned, the error logged (if any)
and the controller afterwards. -/
structure Processed where
  goOn : Bool
  logged : Option Error
  controller : Controller
deriving DecidableEq, Repr

/-- Method `Controller.processNextEvent`. The result is `none` when `Get` blocks. -/
def processNextEvent (Deployment : String) (inf : Informers) (c : Controller) :
    Option Processed :=
  match c.eventQueue.Get with
  | none => none
  | some (obj, shutdown, q1) =>
    let c1 := { c with eventQueue := q1 }
    if shutdown then some { goOn := false, logged := none, controller := c1 }
    else
      match obj with
      | Obj.str key =>
        match reconcileEvent Deployment inf c1 key with
        | (c2, some err) =>
          let c3 := { c2 with eventQueue := c2.eventQueue.Add (Obj.str key) }
          let c4 := { c3 with eventQueue := c3.eventQueue.Done obj }
          some { goOn := true, logged := some (Error.failToSync key err), controller := c4 }
        | (c2, none) =>
          let c3 := { c2 with eventQueue := c2.eventQueue.Forget obj }
          let c4 := { c3 with eventQueue := c3.eventQueue.Done obj }
          some { goOn := true, logged := none, controller := c4 }
      | _ =>
        let c3 := { c1 with eventQueue := c1.eventQueue.Forget obj }
        let c4 := { c3 with eventQueue := c3.eventQueue.Done obj }
        some { goOn := true, logged := none, controller := c4 }

/-- How a call of `Run` ends. -/
inductive RunOutcome where
  /-- `Run` returned this error (`none` is Go nil); the deferred calls have run. -/
  | returned (err : Option Error)
  /-- The process was ended by `os.Exit`; deferred calls do not run. -/
  | exited (code : Nat)
deriving DecidableEq, Repr

/-- Method `Controller.Run`, as far as the controller itself is concerned.
`synced` is the result of `WaitForCacheSync`, `createErr` the error of
`CreateDeployment` and `ctxDone` tells whether the context is ever cancelled.
The result is `none` when `Run` blocks forever on `ctx.Done()`. The work of the
queue worker started by `Run` is not part of this function. -/
def Run (synced : Bool) (createErr : Option Error) (ctxDone : Bool) (c : Controller) :
    Option (RunOutcome × Controller) :=
  let deferred := fun (c : Controller) =>
    { c with eventQueue := c.eventQueue.ShuttingDown.2 }
  if !synced then some (RunOutcome.returned (some Error.cacheSync), deferred c)
  else
    match createErr with
    | some _ => some (RunOutcome.exited 1, c)
    | none => if ctxDone then some (RunOutcome.returned none, deferred c) else none

/-! ## Sequences of reconciliations -/

/-- One call of `reconcileEvent`: the informer caches at that time and the key. -/
abbrev Call := Informers × String

/-- The controller after one call; the error returned is dropped. -/
def stepCall (Deployment : String) (c : Controller) (call : Call) : Controller :=
  (reconcileEvent Deployment call.1 c call.2).1

/-- The controller after a sequence of calls executed one after another. -/
def runCalls (Deployment : String) : List Call → Controller → Controller
  | [], c => c
  | call :: calls, c => runCalls Deployment calls (stepCall Deployment c call)

/-- The controllers observed after each call of a sequence, in order. -/
def traceCalls (Deployment : String) : List Call → Controller → List Controller
  | [], _ => []
  | call :: calls, c =>
    stepCall Deployment c call :: traceCalls Deployment calls (stepCall Deployment c call)

/-- The event a call resolves its key to, if any. -/
def lookup (betaEvent : Bool) (call : Call) : Option Event :=
  if betaEvent then call.1.BetaEventInformer call.2 else call.1.EventInformer call.2

/-- The test applied by `reconcileEvent` to a resolved event. -/
def qualifies (Deployment : String) (e : Event) : Bool :=
  decide (e.Reason = ImagePulled) && Contains e.Name Deployment

/-- A call whose key resolves to an event that passes the test. -/
def advances (Deployment : String) (betaEvent : Bool) (call : Call) : Bool :=
  match lookup betaEvent call with
  | none => false
  | some e => qualifies Deployment e

/-- Number of calls of a sequence that resolve to an event passing the test. -/
def countAdvances (Deployment : String) (betaEvent : Bool) (calls : List Call) : Nat :=
  (calls.filter (advances Deployment betaEvent)).length

/-- Closed form of the controller after a call that passes the test: the counter
is incremented and `cancelFunc` is invoked when the new value equals `Desired`. -/
def advanced (c : Controller) : Controller :=
  { c with cache := c.cache.Incr,
           cancelCalls := c.cancelCalls + (if c.cache.Incr.Actual = c.Desired then 1 else 0) }

/-- The informer caches holding exactly the listed events (in both variants):
the lister of namespace `EventNameSpace` finds an event of that namespace by its
own name. -/
def informersOf (events : List Event) : Informers :=
  { EventInformer := fun name =>
      events.find? (fun e => e.Namespace == EventNameSpace && e.Name == name),
    BetaEventInformer := fun name =>
      events.find? (fun e => e.Namespace == EventNameSpace && e.Name == name) }

/-- An event in the watched namespace about the object of the same name. -/
def mkEvent (name reason : String) : Event :=
  { Name := name, Namespace := EventNameSpace, Reason := reason, RegardingName := name }

/-! ## Concrete data -/

/-- A workload name as `Init` generates it. -/
def workload : String := "dragonfly-stress-test-0102-150405"

def nameA : String := "dragonfly-stress-test-0102-150405-a"

def nameB : String := "dragonfly-stress-test-0102-150405-b"

def nameC : String := "dragonfly-stress-test-0102-150405-c"

def nameD : String := "dragonfly-stress-test-0102-150405-d"

/-- The informer caches of the scenarios: `a`, `b`, `c` pulled, `d` failed. -/
def scenarioInformers : Informers :=
  informersOf [mkEvent nameA "Pulled", mkEvent nameB "Pulled", mkEvent nameC "Pulled",
    mkEvent nameD "Failed"]

/-- The call of `reconcileEvent` with the given key on the scenario caches. -/
def callOf (key : String) : Call := (scenarioInformers, key)

/-- An event about a pod of the workload whose own name does not mention it. -/
def involvedOnly : Event :=
  { Name := "image-pull.17a2b3c4", Namespace := EventNameSpace, Reason := "Pulled",
    RegardingName := nameA }

/-- A key that the scenario caches do not hold. -/
def missingKey : String := "dragonfly-stress-test-0102-150405-z"

/-- The new controller with `missingKey` enqueued. -/
def pending : Controller := enqueueEvent (Controller.new 3 false) missingKey

/-- The queue of `pending` once `Get` has handed out `missingKey`. -/
def taken : Queue :=
  { Queue.empty with
    processing := [Obj.str missingKey],
    calls := [QueueCall.Add (Obj.str missingKey), QueueCall.Get] }

/-- The deliveries `a`, `a`. -/
def duplicateCalls : List Call := [callOf nameA, callOf nameA]

/-- The deliveries `a`, `b`, `a`, `c`. -/
def scenarioCalls : List Call := [callOf nameA, callOf nameB, callOf nameA, callOf nameC]

/-- The delivery `a` repeated `2^32 + 1` times. -/
def wrapAroundCalls : List Call :=
  callOf nameA :: (List.replicate 4294967295 (callOf nameA) ++ [callOf nameA])

/-! ## Arithmetic of the 32-bit counter -/

theorem wrapInt32_inRange (x : Int) : InRange32 (wrapInt32 x) := by
  unfold InRange32 wrapInt32
  omega

theorem wrapInt32_of_inRange (x : Int) (h : InRange32 x) : wrapInt32 x = x := by
  unfold InRange32 at h
  unfold wrapInt32
  omega

theorem wrapInt32_add_left (x y : Int) : wrapInt32 (wrapInt32 x + y) = wrapInt32 (x + y) := by
  unfold wrapInt32
  omega

theorem wrapInt32_succ_ne (x : Int) : wrapInt32 (x + 1) ≠ x := by
  unfold wrapInt32
  omega

theorem wrapInt32_succ_of_lt (x : Int) (h0 : -2147483648 ≤ x) (h : x < 2147483647) :
    wrapInt32 (x + 1) = x + 1 := by
  unfold wrapInt32
  omega

/-! ## The completion counter: lemmas -/

theorem runCache_append (xs ys : List CacheOp) (c : Cache) :
    runCache (xs ++ ys) c = runCache ys (runCache xs c) := by
  induction xs generalizing c with
  | nil => rfl
  | cons op xs ih => simp [runCache, ih]

theorem countIncr_append (xs ys : List CacheOp) :
    countIncr (xs ++ ys) = countIncr xs + countIncr ys := by
  simp [countIncr]

theorem countIncr_cons_Incr (ops : List CacheOp) :
    countIncr (CacheOp.Incr :: ops) = countIncr ops + 1 := by
  simp [countIncr]

theorem countIncr_cons_Get (ops : List CacheOp) :
    countIncr (CacheOp.Get :: ops) = countIncr ops := by
  simp [countIncr]

/-- After any sequence of calls the counter is the wrapped number of `Incr` calls
added to the initial value. -/
theorem runCache_Actual (ops : List CacheOp) (c : Cache) (hc : InRange32 c.Actual) :
    (runCache ops c).Actual = wrapInt32 (c.Actual + (countIncr ops : Int)) := by
  induction ops generalizing c with
  | nil => simp [runCache, countIncr, wrapInt32_of_inRange _ hc]
  | cons op ops ih =>
    cases op with
    | Get =>
      rw [countIncr_cons_Get]
      exact ih c hc
    | Incr =>
      rw [countIncr_cons_Incr]
      have h1 := ih c.Incr (wrapInt32_inRange _)
      simp only [runCache, CacheOp.apply]
      rw [h1]
      simp only [Cache.Incr]
      rw [wrapInt32_add_left]
      push_cast
      congr 1
      ring

theorem runCache_Actual_zero (ops : List CacheOp) (h : countIncr ops < 2147483648) :
    (runCache ops { Actual := 0 }).Actual = (countIncr ops : Int) := by
  rw [runCache_Actual ops { Actual := 0 } (by unfold InRange32; simp)]
  simp only [zero_add]
  apply wrapInt32_of_inRange
  unfold InRange32
  omega

theorem runCache_replicate_Incr (n : Nat) :
    (runCache (List.replicate n CacheOp.Incr) { Actual := 0 }).Actual = wrapInt32 (n : Int) := by
  rw [runCache_Actual _ _ (by unfold InRange32; simp)]
  simp [countIncr]

/-! ## The reconciler: lemmas -/

theorem reconcileEvent_eq (dep : String) (inf : Informers) (c : Controller) (name : String) :
    reconcileEvent dep inf c name =
      match lookup c.BetaEvent (inf, name) with
      | none => (c, some (Error.notFound name))
      | some e => reconcileFound dep c e.Reason e.Name := by
  unfold reconcileEvent lookup
  cases hb : c.BetaEvent <;> simp

theorem reconcileFound_eq (dep : String) (c : Controller) (reason eventName : String) :
    reconcileFound dep c reason eventName =
      if (decide (reason = ImagePulled) && Contains eventName dep) = true then (advanced c, none)
      else (c, none) := by
  unfold reconcileFound advanced Cache.Get
  by_cases h1 : reason = ImagePulled <;> by_cases h2 : Contains eventName dep = true <;>
    simp [h1, h2]
  split <;> rfl

theorem advanced_cancelCalls (c : Controller) (h : c.cache.Incr.Actual = c.Desired) :
    (advanced c).cancelCalls = c.cancelCalls + 1 := by
  simp only [advanced, h, if_true]

theorem stepCall_of_advances (dep : String) (c : Controller) (call : Call)
    (h : advances dep c.BetaEvent call = true) : stepCall dep c call = advanced c := by
  unfold stepCall
  rw [reconcileEvent_eq]
  unfold advances at h
  cases hl : lookup c.BetaEvent call with
  | none => simp [hl] at h
  | some e =>
    rw [hl] at h
    simp only [qualifies] at h
    have hl2 : lookup c.BetaEvent (call.1, call.2) = some e := hl
    simp only [hl2]
    rw [reconcileFound_eq, if_pos h]

theorem stepCall_of_not_advances (dep : String) (c : Controller) (call : Call)
    (h : advances dep c.BetaEvent call = false) : stepCall dep c call = c := by
  unfold stepCall
  rw [reconcileEvent_eq]
  unfold advances at h
  cases hl : lookup c.BetaEvent call with
  | none =>
    have hl2 : lookup c.BetaEvent (call.1, call.2) = none := hl
    simp only [hl2]
  | some e =>
    rw [hl] at h
    simp only [qualifies] at h
    have hl2 : lookup c.BetaEvent (call.1, call.2) = some e := hl
    simp only [hl2]
    rw [reconcileFound_eq, if_neg (by simp [h])]

theorem stepCall_fields (dep : String) (c : Controller) (call : Call) :
    (stepCall dep c call).Desired = c.Desired ∧ (stepCall dep c call).BetaEvent = c.BetaEvent ∧
      (stepCall dep c call).eventQueue = c.eventQueue ∧
      c.cancelCalls ≤ (stepCall dep c call).cancelCalls := by
  cases h : advances dep c.BetaEvent call with
  | true => rw [stepCall_of_advances dep c call h]; simp [advanced]
  | false => rw [stepCall_of_not_advances dep c call h]; simp

theorem runCalls_cons (dep : String) (x : Call) (xs : List Call) (c : Controller) :
    runCalls dep (x :: xs) c = runCalls dep xs (stepCall dep c x) := rfl

theorem runCalls_append (dep : String) (xs ys : List Call) (c : Controller) :
    runCalls dep (xs ++ ys) c = runCalls dep ys (runCalls dep xs c) := by
  induction xs generalizing c with
  | nil => rfl
  | cons x xs ih => simp [runCalls, ih]

theorem runCalls_fields (dep : String) (calls : List Call) (c : Controller) :
    (runCalls dep calls c).Desired = c.Desired ∧ (runCalls dep calls c).BetaEvent = c.BetaEvent ∧
      (runCalls dep calls c).eventQueue = c.eventQueue ∧
      c.cancelCalls ≤ (runCalls dep calls c).cancelCalls := by
  induction calls generalizing c with
  | nil => simp [runCalls]
  | cons x xs ih =>
    obtain ⟨h1, h2, h3, h4⟩ := ih (stepCall dep c x)
    obtain ⟨g1, g2, g3, g4⟩ := stepCall_fields dep c x
    simp only [runCalls]
    exact ⟨h1.trans g1, h2.trans g2, h3.trans g3, le_trans g4 h4⟩

theorem countAdvances_cons (dep : String) (b : Bool) (x : Call) (xs : List Call) :
    countAdvances dep b (x :: xs) =
      (if advances dep b x = true then 1 else 0) + countAdvances dep b xs := by
  unfold countAdvances
  by_cases h : advances dep b x = true
  · simp [h, List.filter_cons]; omega
  · simp [h, List.filter_cons]

theorem countAdvances_append (dep : String) (b : Bool) (xs ys : List Call) :
    countAdvances dep b (xs ++ ys) = countAdvances dep b xs + countAdvances dep b ys := by
  simp [countAdvances]

theorem countAdvances_replicate (dep : String) (b : Bool) (x : Call) (n : Nat)
    (h : advances dep b x = true) : countAdvances dep b (List.replicate n x) = n := by
  induction n with
  | zero => simp [countAdvances]
  | succ n ih => rw [List.replicate_succ, countAdvances_cons, ih, if_pos h]; omega

theorem countAdvances_of_all (dep : String) (b : Bool) (calls : List Call)
    (h : ∀ call ∈ calls, advances dep b call = true) :
    countAdvances dep b calls = calls.length := by
  induction calls with
  | nil => simp [countAdvances]
  | cons x xs ih =>
    rw [countAdvances_cons, if_pos (h x (List.mem_cons_self _ _)),
      ih (fun call hc => h call (List.mem_cons_of_mem _ hc))]
    simp; omega

/-- The counter after a sequence of calls: the wrapped number of calls that pass
the test, added to the initial value. -/
theorem runCalls_Actual (dep : String) (calls : List Call) (c : Controller)
    (hc : InRange32 c.cache.Actual) :
    (runCalls dep calls c).cache.Actual =
      wrapInt32 (c.cache.Actual + (countAdvances dep c.BetaEvent calls : Int)) := by
  induction calls generalizing c with
  | nil => simp [runCalls, countAdvances, wrapInt32_of_inRange _ hc]
  | cons x xs ih =>
    simp only [runCalls]
    rw [countAdvances_cons]
    cases h : advances dep c.BetaEvent x with
    | true =>
      rw [stepCall_of_advances dep c x h]
      rw [ih (advanced c) (by simp only [advanced, Cache.Incr]; exact wrapInt32_inRange _)]
      simp only [advanced, Cache.Incr]
      rw [wrapInt32_add_left]
      congr 1
      simp
      ring
    | false =>
      rw [stepCall_of_not_advances dep c x h]
      rw [ih c hc]
      simp

/-- While fewer than `2^32 + Desired` calls have advanced the counter, `cancelFunc`
has been invoked once if `Desired` calls have advanced it and not at all before. -/
theorem runCalls_cancelCalls (dep : String) (calls : List Call) (c : Controller) (m : Nat)
    (hD : 0 < c.Desired) (hD2 : c.Desired < 2147483648)
    (hA : c.cache.Actual = wrapInt32 (m : Int))
    (hC : c.cancelCalls = if c.Desired ≤ (m : Int) then 1 else 0)
    (hb : (m : Int) + (countAdvances dep c.BetaEvent calls : Int) < 4294967296 + c.Desired) :
    (runCalls dep calls c).cancelCalls =
      if c.Desired ≤ (m : Int) + (countAdvances dep c.BetaEvent calls : Int) then 1 else 0 := by
  induction calls generalizing c m with
  | nil => simpa [runCalls, countAdvances] using hC
  | cons x xs ih =>
    simp only [runCalls]
    rw [countAdvances_cons] at hb ⊢
    cases h : advances dep c.BetaEvent x with
    | true =>
      rw [h] at hb
      simp only [if_true] at hb ⊢
      rw [stepCall_of_advances dep c x h]
      have hA1 : (advanced c).cache.Actual = wrapInt32 ((m + 1 : Nat) : Int) := by
        simp only [advanced, Cache.Incr, hA]
        rw [wrapInt32_add_left]
        push_cast
        rfl
      have hC1 : (advanced c).cancelCalls =
          if (advanced c).Desired ≤ ((m + 1 : Nat) : Int) then 1 else 0 := by
        have hA2 : c.cache.Incr.Actual = wrapInt32 ((m : Int) + 1) := by
          simp only [Cache.Incr, hA]
          rw [wrapInt32_add_left]
        simp only [advanced, hA2, hC]
        push_cast at hb ⊢
        unfold wrapInt32
        split_ifs <;> omega
      have hstep := ih (advanced c) (m + 1) hD hD2 hA1 hC1
        (by simp only [advanced]; push_cast at hb ⊢; omega)
      rw [hstep]
      simp only [advanced]
      push_cast
      congr 1
      apply propext
      constructor <;> intro hh <;> omega
    | false =>
      rw [h] at hb
      simp only [Bool.false_eq_true, if_false, Nat.cast_add, Nat.cast_zero, zero_add] at hb ⊢
      rw [stepCall_of_not_advances dep c x h]
      simpa using ih c m hD hD2 hA hC hb

/-- Below the target, the counter reaches `Desired` after some call exactly when
at least `Desired` calls in all advance it. -/
theorem traceCalls_reaches (dep : String) (calls : List Call) (c : Controller)
    (h0 : 0 ≤ c.cache.Actual) (hlt : c.cache.Actual < c.Desired)
    (hD2 : c.Desired < 2147483648) :
    (∃ s ∈ traceCalls dep calls c, s.cache.Actual = c.Desired) ↔
      c.Desired ≤ c.cache.Actual + (countAdvances dep c.BetaEvent calls : Int) := by
  induction calls generalizing c with
  | nil =>
    simp only [traceCalls, List.not_mem_nil, false_and, exists_false, countAdvances,
      List.filter_nil, List.length_nil, Nat.cast_zero, add_zero, false_iff]
    omega
  | cons x xs ih =>
    simp only [traceCalls, List.mem_cons, exists_eq_or_imp]
    rw [countAdvances_cons]
    cases h : advances dep c.BetaEvent x with
    | true =>
      rw [stepCall_of_advances dep c x h]
      have hA : (advanced c).cache.Actual = c.cache.Actual + 1 := by
        simp only [advanced, Cache.Incr]
        exact wrapInt32_succ_of_lt _ (by omega) (by omega)
      by_cases hreach : c.cache.Actual + 1 = c.Desired
      · constructor
        · intro _
          simp only [if_true]
          push_cast
          omega
        · intro _
          left
          rw [hA]
          simpa [advanced] using hreach
      · have hih := ih (advanced c) (by rw [hA]; omega)
          (by rw [hA]; simp only [advanced]; omega) hD2
        rw [hA] at hih
        simp only [advanced] at hih ⊢
        simp only [if_true]
        push_cast
        constructor
        · rintro (h1 | h1)
          · exfalso
            simp only [Cache.Incr] at h1
            rw [wrapInt32_succ_of_lt _ (by omega) (by omega)] at h1
            exact hreach h1
          · have := hih.mp h1
            omega
        · intro h1
          right
          exact hih.mpr (by omega)
    | false =>
      rw [stepCall_of_not_advances dep c x h]
      have hih := ih c h0 hlt hD2
      simp only [Bool.false_eq_true, if_false, Nat.cast_add, Nat.cast_zero, zero_add]
      constructor
      · rintro (h1 | h1)
        · omega
        · exact hih.mp h1
      · intro h1
        right
        exact hih.mpr h1

/-! ## Claims about sequences of reconciliations -/

/-- C1, as stated, fails: the qualifying name `a` delivered twice (one distinct
name, one repeated delivery) leaves the counter at 2, not at 1. -/
theorem redelivery_counted_again :
    (∀ call ∈ duplicateCalls, advances workload false call = true) ∧
      (duplicateCalls.map Prod.snd).dedup.length = 1 ∧
      duplicateCalls.length = 1 + 1 ∧
      (Controller.new 3 false).cache.Actual = 0 ∧
      (runCalls workload duplicateCalls (Controller.new 3 false)).cache.Actual = 2 ∧
      ¬ (runCalls workload duplicateCalls (Controller.new 3 false)).cache.Actual = 1 := by
  decide

/-- C1, amended: for every sequence of successful `reconcileEvent` calls from
counter 0 whose keys resolve to qualifying events, with `N` distinct keys and `M`
further deliveries of keys already seen, the final `Cache.Actual` is `N + M` in
32-bit arithmetic, hence exactly `N + M` when `N + M < 2^31`: every delivery is
counted, repeated or not. -/
theorem every_delivery_counted (dep : String) (calls : List Call) (c : Controller) (N M : Nat)
    (h0 : c.cache.Actual = 0)
    (hq : ∀ call ∈ calls, advances dep c.BetaEvent call = true)
    (hN : (calls.map Prod.snd).dedup.length = N)
    (hlen : calls.length = N + M) :
    (∀ call ∈ calls, (reconcileEvent dep call.1 c call.2).2 = none) ∧
      (runCalls dep calls c).cache.Actual = wrapInt32 ((N + M : Nat) : Int) ∧
      (N + M < 2147483648 → (runCalls dep calls c).cache.Actual = ((N + M : Nat) : Int)) := by
  subst hN
  have hA : (runCalls dep calls c).cache.Actual =
      wrapInt32 (((calls.map Prod.snd).dedup.length + M : Nat) : Int) := by
    rw [runCalls_Actual dep calls c (by rw [h0]; unfold InRange32; omega), h0,
      countAdvances_of_all dep c.BetaEvent calls hq, hlen]
    simp
  refine ⟨?_, hA, ?_⟩
  · intro call hcall
    have h := hq call hcall
    rw [reconcileEvent_eq]
    unfold advances at h
    cases hl : lookup c.BetaEvent call with
    | none => simp [hl] at h
    | some e =>
      have hl2 : lookup c.BetaEvent (call.1, call.2) = some e := hl
      simp only [hl2]
      rw [reconcileFound_eq]
      split <;> rfl
  · intro hb
    rw [hA]
    apply wrapInt32_of_inRange
    unfold InRange32
    omega

theorem every_delivery_counted_witness :
    (∀ call ∈ scenarioCalls,
        (reconcileEvent workload call.1 (Controller.new 3 false) call.2).2 = none) ∧
      (runCalls workload scenarioCalls (Controller.new 3 false)).cache.Actual =
        wrapInt32 ((3 + 1 : Nat) : Int) ∧
      (3 + 1 < 2147483648 →
        (runCalls workload scenarioCalls (Controller.new 3 false)).cache.Actual =
          ((3 + 1 : Nat) : Int)) :=
  every_delivery_counted workload scenarioCalls (Controller.new 3 false) 3 1
    (by decide) (by decide) (by decide) (by decide)

/-- C2, as stated, fails: with `Desired = 3` the deliveries `a`, `b`, `a`, `c` do
not give the counter values 1, 2, 2, 3 with the first `cancelFunc` call in the
fourth `reconcileEvent`: the counter reads 3 after the third call. -/
theorem scenario_not_deduplicated :
    ¬ ((traceCalls workload scenarioCalls (Controller.new 3 false)).map
          (fun s => s.cache.Actual) = [1, 2, 2, 3] ∧
        (traceCalls workload scenarioCalls (Controller.new 3 false)).map
          (fun s => s.cancelCalls) = [0, 0, 0, 1]) := by
  decide

/-- C2, amended: with `Desired = 3` the deliveries `a`, `b`, `a`, `c` from counter 0
give the counter values 1, 2, 3, 4, and `cancelFunc` is invoked exactly once,
during the third call (the repeated `a`). More generally, for `0 < Desired < 2^31`,
`cancelFunc` is first invoked by the `reconcileEvent` call that processes the
`Desired`-th qualifying delivery, repeated deliveries included. -/
theorem cancel_at_desired_delivery :
    ((traceCalls workload scenarioCalls (Controller.new 3 false)).map
        (fun s => s.cache.Actual) = [1, 2, 3, 4] ∧
      (traceCalls workload scenarioCalls (Controller.new 3 false)).map
        (fun s => s.cancelCalls) = [0, 0, 1, 1]) ∧
    (∀ (dep : String) (pre : List Call) (call : Call) (c : Controller),
      c.cache.Actual = 0 → c.cancelCalls = 0 → 0 < c.Desired → c.Desired < 2147483648 →
      advances dep c.BetaEvent call = true →
      (countAdvances dep c.BetaEvent pre : Int) + 1 = c.Desired →
      (runCalls dep pre c).cancelCalls = 0 ∧
        (runCalls dep (pre ++ [call]) c).cancelCalls = 1 ∧
        (runCalls dep (pre ++ [call]) c).cache.Actual = c.Desired) := by
  refine ⟨by decide, ?_⟩
  intro dep pre call c h0 hc hD hD2 hadv hcount
  have hA : c.cache.Actual = wrapInt32 ((0 : Nat) : Int) := by rw [h0]; decide
  have hC : c.cancelCalls = if c.Desired ≤ ((0 : Nat) : Int) then 1 else 0 := by
    rw [hc, if_neg]
    push_cast
    omega
  have hlast : countAdvances dep c.BetaEvent (pre ++ [call]) =
      countAdvances dep c.BetaEvent pre + 1 := by
    rw [countAdvances_append, countAdvances_cons, if_pos hadv]
    simp [countAdvances]
  refine ⟨?_, ?_, ?_⟩
  · rw [runCalls_cancelCalls dep pre c 0 hD hD2 hA hC (by push_cast; omega), if_neg]
    push_cast
    omega
  · rw [runCalls_cancelCalls dep (pre ++ [call]) c 0 hD hD2 hA hC
      (by rw [hlast]; push_cast; omega), if_pos]
    rw [hlast]
    push_cast
    omega
  · rw [runCalls_Actual dep (pre ++ [call]) c (by rw [h0]; unfold InRange32; omega), h0, hlast]
    apply (wrapInt32_of_inRange _ _).trans
    · push_cast
      omega
    · unfold InRange32
      push_cast
      omega

theorem cancel_at_desired_delivery_witness :
    (runCalls workload [callOf nameA, callOf nameB] (Controller.new 3 false)).cancelCalls = 0 ∧
      (runCalls workload ([callOf nameA, callOf nameB] ++ [callOf nameA])
        (Controller.new 3 false)).cancelCalls = 1 ∧
      (runCalls workload ([callOf nameA, callOf nameB] ++ [callOf nameA])
        (Controller.new 3 false)).cache.Actual = (Controller.new 3 false).Desired :=
  cancel_at_desired_delivery.2 workload [callOf nameA, callOf nameB] (callOf nameA)
    (Controller.new 3 false) (by decide) (by decide) (by decide) (by decide) (by decide)
    (by decide)

/-- C3, as stated, fails: with `Desired = 1`, over the sequence of `2^32 + 1`
deliveries of the qualifying event `a` the 32-bit counter comes back to 1 and
`reconcileEvent` invokes `cancelFunc` a second time. -/
theorem cancel_twice_after_wrap :
    0 < (Controller.new 1 false).Desired ∧
      (Controller.new 1 false).cache.Actual = 0 ∧
      (Controller.new 1 false).cancelCalls = 0 ∧
      ¬ (runCalls workload wrapAroundCalls (Controller.new 1 false)).cancelCalls ≤ 1 := by
  refine ⟨by decide, by decide, by decide, ?_⟩
  have hadv : advances workload false (callOf nameA) = true := by decide
  have hfirst : stepCall workload (Controller.new 1 false) (callOf nameA) =
      { Controller.new 1 false with cache := { Actual := 1 }, cancelCalls := 1 } := by decide
  generalize hs1 : stepCall workload (Controller.new 1 false) (callOf nameA) = s1 at hfirst
  have hs1B : s1.BetaEvent = false := by simp [hfirst, Controller.new]
  have hs1D : s1.Desired = 1 := by simp [hfirst, Controller.new]
  have hs1A : s1.cache.Actual = 1 := by simp [hfirst]
  have hs1C : s1.cancelCalls = 1 := by simp [hfirst]
  generalize hn : (4294967295 : Nat) = n
  have hmid := runCalls_Actual workload (List.replicate n (callOf nameA)) s1
    (by rw [hs1A]; unfold InRange32; omega)
  rw [hs1B, countAdvances_replicate workload false (callOf nameA) n hadv, hs1A] at hmid
  obtain ⟨hD, hB, _, hC⟩ := runCalls_fields workload (List.replicate n (callOf nameA)) s1
  generalize hs2 : runCalls workload (List.replicate n (callOf nameA)) s1 = s2 at hmid hD hB hC
  have hA2 : s2.cache.Actual = 0 := by
    rw [hmid, ← hn]
    decide
  have hlast : stepCall workload s2 (callOf nameA) = advanced s2 :=
    stepCall_of_advances workload s2 (callOf nameA) (by rw [hB, hs1B]; exact hadv)
  have hfinal : runCalls workload
      (callOf nameA :: (List.replicate n (callOf nameA) ++ [callOf nameA]))
      (Controller.new 1 false) = advanced s2 := by
    rw [runCalls_cons, hs1, runCalls_append, hs2, runCalls_cons, hlast]
    rfl
  have hinput : wrapAroundCalls =
      callOf nameA :: (List.replicate n (callOf nameA) ++ [callOf nameA]) := by
    rw [← hn]
    rfl
  rw [hinput, hfinal]
  have hincr : s2.cache.Incr.Actual = s2.Desired := by
    rw [hD, hs1D]
    simp only [Cache.Incr, hA2]
    decide
  have hcancel := advanced_cancelCalls s2 hincr
  omega

/-- C3, amended: for every `0 < Desired < 2^31` and every finite sequence of
`reconcileEvent` calls executed one after another from counter 0 in which fewer
than `2^32 + Desired` calls advance the counter, `cancelFunc` is invoked at most
once over the sequence, and it is invoked if and only if the counter equals
`Desired` after some call; in every call, `cancelFunc` is invoked exactly when the
call increments the counter and leaves it equal to `Desired`. -/
theorem cancel_at_most_once (dep : String) (calls : List Call) (c : Controller)
    (h0 : c.cache.Actual = 0) (hc : c.cancelCalls = 0)
    (hD : 0 < c.Desired) (hD2 : c.Desired < 2147483648)
    (hb : (countAdvances dep c.BetaEvent calls : Int) < 4294967296 + c.Desired) :
    (runCalls dep calls c).cancelCalls ≤ 1 ∧
      ((runCalls dep calls c).cancelCalls = 1 ↔
        ∃ s ∈ traceCalls dep calls c, s.cache.Actual = c.Desired) ∧
      (∀ (s : Controller) (call : Call),
        (stepCall dep s call).cancelCalls = s.cancelCalls +
          (if advances dep s.BetaEvent call = true ∧
              (stepCall dep s call).cache.Actual = s.Desired then 1 else 0)) := by
  have hA : c.cache.Actual = wrapInt32 ((0 : Nat) : Int) := by rw [h0]; decide
  have hC : c.cancelCalls = if c.Desired ≤ ((0 : Nat) : Int) then 1 else 0 := by
    rw [hc, if_neg]
    push_cast
    omega
  have hcount := runCalls_cancelCalls dep calls c 0 hD hD2 hA hC (by push_cast; omega)
  have hreach := traceCalls_reaches dep calls c (by omega) (by omega) hD2
  rw [h0] at hreach
  push_cast at hcount
  refine ⟨?_, ?_, ?_⟩
  · rw [hcount]
    split_ifs <;> omega
  · rw [hreach, hcount]
    simp only [zero_add]
    split_ifs with h <;> simp [h]
  · intro s call
    cases h : advances dep s.BetaEvent call with
    | true =>
      rw [stepCall_of_advances dep s call h]
      simp [advanced]
    | false =>
      rw [stepCall_of_not_advances dep s call h]
      simp

theorem cancel_at_most_once_witness :
    (runCalls workload scenarioCalls (Controller.new 3 false)).cancelCalls ≤ 1 ∧
      ((runCalls workload scenarioCalls (Controller.new 3 false)).cancelCalls = 1 ↔
        ∃ s ∈ traceCalls workload scenarioCalls (Controller.new 3 false),
          s.cache.Actual = (Controller.new 3 false).Desired) ∧
      (∀ (s : Controller) (call : Call),
        (stepCall workload s call).cancelCalls = s.cancelCalls +
          (if advances workload s.BetaEvent call = true ∧
              (stepCall workload s call).cache.Actual = s.Desired then 1 else 0)) :=
  cancel_at_most_once workload scenarioCalls (Controller.new 3 false)
    (by decide) (by decide) (by decide) (by decide) (by decide)

/-! ## Claims about the counter -/

/-- C9, as stated, fails: after `2^31` calls of `Incr` from the zero `Cache` the
32-bit counter is negative, below its value after `2^31 - 1` calls. -/
theorem counter_overflows :
    ¬ 0 ≤ (runCache (List.replicate 2147483648 CacheOp.Incr) { Actual := 0 }).Actual ∧
      (runCache (List.replicate 2147483648 CacheOp.Incr) { Actual := 0 }).Actual <
        (runCache (List.replicate 2147483647 CacheOp.Incr) { Actual := 0 }).Actual := by
  rw [runCache_replicate_Incr, runCache_replicate_Incr]
  unfold wrapInt32
  constructor <;> omega

/-- C9, amended: starting from the zero `Cache`, for every sequence of `Get` and
`Incr` calls with fewer than `2^31` calls of `Incr`, `Cache.Actual` is `>= 0` at
every point and non-decreasing, each `Incr` increases it by exactly 1, and `Get`
returns the current value without changing the cache. -/
theorem counter_monotone_below_overflow (ops : List CacheOp)
    (h : countIncr ops < 2147483648) :
    (∀ pre mid post : List CacheOp, ops = pre ++ mid ++ post →
        0 ≤ (runCache pre { Actual := 0 }).Actual ∧
        (runCache pre { Actual := 0 }).Actual ≤ (runCache (pre ++ mid) { Actual := 0 }).Actual) ∧
      (∀ pre post : List CacheOp, ops = pre ++ CacheOp.Incr :: post →
        (CacheOp.Incr.apply (runCache pre { Actual := 0 })).1.Actual =
          (runCache pre { Actual := 0 }).Actual + 1) ∧
      (∀ pre post : List CacheOp, ops = pre ++ CacheOp.Get :: post →
        CacheOp.Get.apply (runCache pre { Actual := 0 }) =
          (runCache pre { Actual := 0 }, some (runCache pre { Actual := 0 }).Actual)) := by
  refine ⟨?_, ?_, ?_⟩
  · intro pre mid post hops
    have hcount : countIncr ops = countIncr pre + countIncr mid + countIncr post := by
      rw [hops, countIncr_append, countIncr_append]
    rw [runCache_Actual_zero pre (by omega), runCache_Actual_zero (pre ++ mid)
      (by rw [countIncr_append]; omega), countIncr_append]
    push_cast
    omega
  · intro pre post hops
    have hcount : countIncr ops = countIncr pre + (countIncr post + 1) := by
      rw [hops, countIncr_append, countIncr_cons_Incr]
    simp only [CacheOp.apply, Cache.Incr]
    rw [runCache_Actual_zero pre (by omega)]
    apply wrapInt32_succ_of_lt <;> omega
  · intro pre post _
    rfl

theorem counter_monotone_below_overflow_witness :
    (∀ pre mid post : List CacheOp,
        [CacheOp.Incr, CacheOp.Get, CacheOp.Incr] = pre ++ mid ++ post →
        0 ≤ (runCache pre { Actual := 0 }).Actual ∧
        (runCache pre { Actual := 0 }).Actual ≤ (runCache (pre ++ mid) { Actual := 0 }).Actual) ∧
      (∀ pre post : List CacheOp,
        [CacheOp.Incr, CacheOp.Get, CacheOp.Incr] = pre ++ CacheOp.Incr :: post →
        (CacheOp.Incr.apply (runCache pre { Actual := 0 })).1.Actual =
          (runCache pre { Actual := 0 }).Actual + 1) ∧
      (∀ pre post : List CacheOp,
        [CacheOp.Incr, CacheOp.Get, CacheOp.Incr] = pre ++ CacheOp.Get :: post →
        CacheOp.Get.apply (runCache pre { Actual := 0 }) =
          (runCache pre { Actual := 0 }, some (runCache pre { Actual := 0 }).Actual)) :=
  counter_monotone_below_overflow [CacheOp.Incr, CacheOp.Get, CacheOp.Incr] (by decide)

/-! ## Claims about the filter and the enqueue handler -/

/-- C4, as stated, fails: a nil pointer of the selected type is not an event, yet
`FilterEvent` does not return false on it: the type assertion succeeds and reading
the namespace through the nil pointer panics, for either setting of `BetaEvent`. -/
theorem FilterEvent_nil_pointer_panics :
    ¬ FilterEvent (Controller.new 3 false) (Obj.eventV1 none) = some false ∧
      FilterEvent (Controller.new 3 false) (Obj.eventV1 none) = none ∧
      ¬ FilterEvent (Controller.new 3 true) (Obj.eventBetaV1 none) = some false ∧
      FilterEvent (Controller.new 3 true) (Obj.eventBetaV1 none) = none := by
  decide

/-- C4, amended: `FilterEvent` returns true if and only if `obj` is a non-nil
pointer to an event of the variant selected by `BetaEvent` whose namespace is
`EventNameSpace`; it returns false, without failing, for every event of that
variant in another namespace and for every `obj` whose dynamic type is not the
selected variant. It only reads the controller and computes a boolean. It fails
exactly on the nil pointer of the selected type. -/
theorem FilterEvent_accepts_iff (c : Controller) (obj : Obj) :
    (FilterEvent c obj = some true ↔
        ∃ e, obj = selectedVariant c.BetaEvent (some e) ∧ e.Namespace = EventNameSpace) ∧
      (∀ e, obj = selectedVariant c.BetaEvent (some e) → e.Namespace ≠ EventNameSpace →
        FilterEvent c obj = some false) ∧
      ((∀ p, obj ≠ selectedVariant c.BetaEvent p) → FilterEvent c obj = some false) ∧
      (FilterEvent c obj = none ↔ obj = selectedVariant c.BetaEvent none) := by
  unfold FilterEvent selectedVariant
  cases hb : c.BetaEvent <;> cases obj with
  | eventV1 p =>
    cases p with
    | none => simp
    | some e => by_cases hn : e.Namespace = EventNameSpace <;> simp [hn]
  | eventBetaV1 p =>
    cases p with
    | none => simp
    | some e => by_cases hn : e.Namespace = EventNameSpace <;> simp [hn]
  | str s => simp
  | other => simp

theorem FilterEvent_accepts_iff_witness :
    (FilterEvent (Controller.new 3 false) (Obj.eventV1 (some (mkEvent nameA "Pulled"))) = some true ↔
        ∃ e, Obj.eventV1 (some (mkEvent nameA "Pulled")) = selectedVariant (Controller.new 3 false).BetaEvent (some e) ∧
          e.Namespace = EventNameSpace) ∧
      (∀ e, Obj.eventV1 (some (mkEvent nameA "Pulled")) = selectedVariant (Controller.new 3 false).BetaEvent (some e) →
        e.Namespace ≠ EventNameSpace →
        FilterEvent (Controller.new 3 false) (Obj.eventV1 (some (mkEvent nameA "Pulled"))) = some false) ∧
      ((∀ p, Obj.eventV1 (some (mkEvent nameA "Pulled")) ≠ selectedVariant (Controller.new 3 false).BetaEvent p) →
        FilterEvent (Controller.new 3 false) (Obj.eventV1 (some (mkEvent nameA "Pulled"))) = some false) ∧
      (FilterEvent (Controller.new 3 false) (Obj.eventV1 (some (mkEvent nameA "Pulled"))) = none ↔
        Obj.eventV1 (some (mkEvent nameA "Pulled")) = selectedVariant (Controller.new 3 false).BetaEvent none) :=
  FilterEvent_accepts_iff (Controller.new 3 false) (Obj.eventV1 (some (mkEvent nameA "Pulled")))

theorem FilterEvent_true_elim (c : Controller) (obj : Obj)
    (h : FilterEvent c obj = some true) :
    ∃ e, obj = selectedVariant c.BetaEvent (some e) ∧ e.Namespace = EventNameSpace := by
  unfold FilterEvent at h
  unfold selectedVariant
  cases hb : c.BetaEvent <;> rw [hb] at h <;> cases obj with
  | eventV1 p =>
    cases p with
    | none => simp at h
    | some e => by_cases hn : e.Namespace = EventNameSpace <;> simp [hn] at h ⊢
  | eventBetaV1 p =>
    cases p with
    | none => simp at h
    | some e => by_cases hn : e.Namespace = EventNameSpace <;> simp [hn] at h ⊢
  | str s => simp at h
  | other => simp at h

/-- C10: for every `obj` that `FilterEvent` admits, `AddEvent` with the same
`BetaEvent` setting does not panic: `obj` points to an event of the selected
variant, and the only effect is one `Add` of that event's `Name` to `eventQueue`. -/
theorem AddEvent_after_filter (c : Controller) (obj : Obj)
    (h : FilterEvent c obj = some true) :
    ∃ e, obj = selectedVariant c.BetaEvent (some e) ∧
      AddEvent c obj = some { c with eventQueue := c.eventQueue.Add (Obj.str e.Name) } ∧
      (c.eventQueue.Add (Obj.str e.Name)).calls =
        c.eventQueue.calls ++ [QueueCall.Add (Obj.str e.Name)] := by
  obtain ⟨e, he, _⟩ := FilterEvent_true_elim c obj h
  refine ⟨e, he, ?_, ?_⟩
  · subst he
    unfold AddEvent selectedVariant enqueueEvent
    cases hb : c.BetaEvent <;> simp
  · unfold Queue.Add
    simp only
    split_ifs <;> rfl

theorem AddEvent_after_filter_witness :
    ∃ e, Obj.eventV1 (some (mkEvent nameA "Pulled")) =
        selectedVariant (Controller.new 3 false).BetaEvent (some e) ∧
      AddEvent (Controller.new 3 false) (Obj.eventV1 (some (mkEvent nameA "Pulled"))) =
        some { Controller.new 3 false with
          eventQueue := (Controller.new 3 false).eventQueue.Add (Obj.str e.Name) } ∧
      ((Controller.new 3 false).eventQueue.Add (Obj.str e.Name)).calls =
        (Controller.new 3 false).eventQueue.calls ++ [QueueCall.Add (Obj.str e.Name)] :=
  AddEvent_after_filter (Controller.new 3 false) (Obj.eventV1 (some (mkEvent nameA "Pulled")))
    (by decide)

/-! ## Claims about the reconciler and the worker -/

/-- C5, as stated, fails: an event with reason "Pulled" whose involved object is
a pod of the workload, but whose own name does not contain the workload name,
does not advance the counter. -/
theorem involved_object_name_not_tested :
    lookup false (informersOf [involvedOnly], involvedOnly.Name) = some involvedOnly ∧
      involvedOnly.Reason = ImagePulled ∧
      Contains involvedOnly.RegardingName workload = true ∧
      (reconcileEvent workload (informersOf [involvedOnly]) (Controller.new 3 false)
        involvedOnly.Name).1.cache.Actual = (Controller.new 3 false).cache.Actual := by
  decide

/-- C5, amended: for every key that the lister resolves to an event,
`reconcileEvent` returns nil, and it advances the counter (by 1 in 32-bit
arithmetic, so by exactly 1 below the largest `int32`) if and only if the event's
reason equals "Pulled" and the event's own name contains the workload name
(`Deployment`); otherwise the controller is unchanged: the counter keeps its value
and `cancelFunc` is not called. In particular an event with reason "Failed"
changes nothing. -/
theorem reconcileEvent_qualification (dep : String) (inf : Informers) (c : Controller)
    (name : String) (e : Event) (hl : lookup c.BetaEvent (inf, name) = some e) :
    (reconcileEvent dep inf c name).2 = none ∧
      ((reconcileEvent dep inf c name).1.cache.Actual ≠ c.cache.Actual ↔
        (e.Reason = ImagePulled ∧ Contains e.Name dep = true)) ∧
      ((e.Reason = ImagePulled ∧ Contains e.Name dep = true) →
        (reconcileEvent dep inf c name).1.cache.Actual = wrapInt32 (c.cache.Actual + 1) ∧
        (-2147483648 ≤ c.cache.Actual → c.cache.Actual < 2147483647 →
          (reconcileEvent dep inf c name).1.cache.Actual = c.cache.Actual + 1)) ∧
      (¬ (e.Reason = ImagePulled ∧ Contains e.Name dep = true) →
        (reconcileEvent dep inf c name).1 = c) ∧
      (e.Reason = "Failed" → (reconcileEvent dep inf c name).1 = c) := by
  rw [reconcileEvent_eq]
  simp only [hl]
  rw [reconcileFound_eq]
  by_cases hq : e.Reason = ImagePulled ∧ Contains e.Name dep = true
  · have hq2 : (decide (e.Reason = ImagePulled) && Contains e.Name dep) = true := by
      simp [hq.1, hq.2]
    rw [if_pos hq2]
    refine ⟨rfl, ?_, ?_, ?_, ?_⟩
    · simp only [advanced, Cache.Incr]
      exact ⟨fun _ => hq, fun _ => wrapInt32_succ_ne _⟩
    · intro _
      refine ⟨rfl, ?_⟩
      intro h1 h2
      simp only [advanced, Cache.Incr]
      exact wrapInt32_succ_of_lt _ h1 h2
    · intro hn
      exact absurd hq hn
    · intro hf
      rw [hf] at hq
      exact absurd hq.1 (by decide)
  · have hq2 : ¬ (decide (e.Reason = ImagePulled) && Contains e.Name dep) = true := by
      simpa using hq
    rw [if_neg hq2]
    refine ⟨rfl, ?_, ?_, ?_, ?_⟩
    · simp [hq]
    · intro h
      exact absurd h hq
    · intro _
      rfl
    · intro _
      rfl

theorem reconcileEvent_qualification_witness :
    (reconcileEvent workload scenarioInformers (Controller.new 3 false) nameD).2 = none ∧
      ((reconcileEvent workload scenarioInformers (Controller.new 3 false) nameD).1.cache.Actual ≠
          (Controller.new 3 false).cache.Actual ↔
        ((mkEvent nameD "Failed").Reason = ImagePulled ∧
          Contains (mkEvent nameD "Failed").Name workload = true)) ∧
      (((mkEvent nameD "Failed").Reason = ImagePulled ∧
          Contains (mkEvent nameD "Failed").Name workload = true) →
        (reconcileEvent workload scenarioInformers (Controller.new 3 false) nameD).1.cache.Actual =
          wrapInt32 ((Controller.new 3 false).cache.Actual + 1) ∧
        (-2147483648 ≤ (Controller.new 3 false).cache.Actual →
          (Controller.new 3 false).cache.Actual < 2147483647 →
          (reconcileEvent workload scenarioInformers (Controller.new 3 false) nameD).1.cache.Actual =
            (Controller.new 3 false).cache.Actual + 1)) ∧
      (¬ ((mkEvent nameD "Failed").Reason = ImagePulled ∧
          Contains (mkEvent nameD "Failed").Name workload = true) →
        (reconcileEvent workload scenarioInformers (Controller.new 3 false) nameD).1 =
          Controller.new 3 false) ∧
      ((mkEvent nameD "Failed").Reason = "Failed" →
        (reconcileEvent workload scenarioInformers (Controller.new 3 false) nameD).1 =
          Controller.new 3 false) :=
  reconcileEvent_qualification workload scenarioInformers (Controller.new 3 false) nameD
    (mkEvent nameD "Failed") (by decide)

theorem Queue_Get_item (q q1 : Queue) (item : Obj)
    (h : q.Get = some (item, false, q1)) :
    q1.calls = q.calls ++ [QueueCall.Get] ∧ q1.processing = item :: q.processing ∧
      q1.dirty = q.dirty.filter (fun x => decide (x ≠ item)) ∧
      q1.shuttingDown = q.shuttingDown ∧ item :: q1.queue = q.queue ∧
      q1.failures = q.failures ∧ q1.waiting = q.waiting := by
  unfold Queue.Get at h
  split at h
  · split at h <;> simp at h
  · rename_i x rest hq
    simp only [Option.some.injEq, Prod.mk.injEq, true_and] at h
    obtain ⟨h1, h2⟩ := h
    subst h1
    subst h2
    simp [hq]

/-- C6: for every key the lister cannot resolve, `reconcileEvent` returns a
non-nil error and leaves the controller unchanged (counter and `cancelFunc`
included); `processNextEvent`, having taken that key from the queue, then calls
`Add` with the same key and `Done`, and returns true: the key is no longer being
processed and, unless the queue is shutting down, it is ready in the queue again.
When the key resolves to an event, `reconcileEvent` returns nil and
`processNextEvent` calls `Forget` and `Done` and no `Add`. -/
theorem lookup_failure_requeues (dep : String) (inf : Informers) (c : Controller)
    (key : String) (q1 : Queue)
    (hget : c.eventQueue.Get = some (Obj.str key, false, q1)) :
    (lookup c.BetaEvent (inf, key) = none →
      reconcileEvent dep inf c key = (c, some (Error.notFound key)) ∧
      processNextEvent dep inf c = some
        { goOn := true, logged := some (Error.failToSync key (Error.notFound key)),
          controller := { c with eventQueue := (q1.Add (Obj.str key)).Done (Obj.str key) } } ∧
      ((q1.Add (Obj.str key)).Done (Obj.str key)).calls = c.eventQueue.calls ++
        [QueueCall.Get, QueueCall.Add (Obj.str key), QueueCall.Done (Obj.str key)] ∧
      Obj.str key ∉ ((q1.Add (Obj.str key)).Done (Obj.str key)).processing ∧
      (c.eventQueue.shuttingDown = false →
        Obj.str key ∈ ((q1.Add (Obj.str key)).Done (Obj.str key)).queue)) ∧
    (∀ e, lookup c.BetaEvent (inf, key) = some e →
      (reconcileEvent dep inf c key).2 = none ∧
      ∃ c2, processNextEvent dep inf c =
          some { goOn := true, logged := none, controller := c2 } ∧
        c2.eventQueue.calls = c.eventQueue.calls ++
          [QueueCall.Get, QueueCall.Forget (Obj.str key), QueueCall.Done (Obj.str key)]) := by
  obtain ⟨hcalls, hproc, hdirty, hshut, _, _, _⟩ := Queue_Get_item _ _ _ hget
  constructor
  · intro hl
    have hrec : ∀ c0 : Controller, c0.BetaEvent = c.BetaEvent →
        reconcileEvent dep inf c0 key = (c0, some (Error.notFound key)) := by
      intro c0 hb
      rw [reconcileEvent_eq, hb]
      simp only [hl]
    have hnotdirty : Obj.str key ∉ q1.dirty := by
      rw [hdirty]
      simp
    refine ⟨hrec c rfl, ?_, ?_, ?_, ?_⟩
    · unfold processNextEvent
      simp only [hget]
      rw [hrec { c with eventQueue := q1 } rfl]
      simp
    · unfold Queue.Done Queue.Add
      simp only [hcalls]
      split_ifs <;> simp
    · unfold Queue.Done
      simp only
      split_ifs <;> simp
    · intro hs
      rw [hs] at hshut
      unfold Queue.Done Queue.Add
      simp [hshut, hnotdirty, hproc]
  · intro e hl
    have hrec : ∀ c0 : Controller, c0.BetaEvent = c.BetaEvent →
        (reconcileEvent dep inf c0 key).2 = none ∧
          (reconcileEvent dep inf c0 key).1.eventQueue = c0.eventQueue := by
      intro c0 hb
      rw [reconcileEvent_eq, hb]
      simp only [hl]
      rw [reconcileFound_eq]
      split <;> simp [advanced]
    refine ⟨(hrec c rfl).1, ?_⟩
    obtain ⟨h2, hq⟩ := hrec { c with eventQueue := q1 } rfl
    unfold processNextEvent
    simp only [hget]
    generalize reconcileEvent dep inf { c with eventQueue := q1 } key = r at h2 hq
    obtain ⟨c2, err⟩ := r
    simp only at h2 hq
    subst h2
    refine ⟨_, rfl, ?_⟩
    simp only [hq]
    unfold Queue.Done Queue.Forget
    simp only [hcalls]
    split_ifs <;> simp

theorem lookup_failure_requeues_witness :
    (lookup pending.BetaEvent (scenarioInformers, missingKey) = none →
      reconcileEvent workload scenarioInformers pending missingKey =
        (pending, some (Error.notFound missingKey)) ∧
      processNextEvent workload scenarioInformers pending = some
        { goOn := true,
          logged := some (Error.failToSync missingKey (Error.notFound missingKey)),
          controller := { pending with
            eventQueue := (taken.Add (Obj.str missingKey)).Done (Obj.str missingKey) } } ∧
      ((taken.Add (Obj.str missingKey)).Done (Obj.str missingKey)).calls =
        pending.eventQueue.calls ++
          [QueueCall.Get, QueueCall.Add (Obj.str missingKey),
            QueueCall.Done (Obj.str missingKey)] ∧
      Obj.str missingKey ∉
        ((taken.Add (Obj.str missingKey)).Done (Obj.str missingKey)).processing ∧
      (pending.eventQueue.shuttingDown = false →
        Obj.str missingKey ∈
          ((taken.Add (Obj.str missingKey)).Done (Obj.str missingKey)).queue)) ∧
    (∀ e, lookup pending.BetaEvent (scenarioInformers, missingKey) = some e →
      (reconcileEvent workload scenarioInformers pending missingKey).2 = none ∧
      ∃ c2, processNextEvent workload scenarioInformers pending =
          some { goOn := true, logged := none, controller := c2 } ∧
        c2.eventQueue.calls = pending.eventQueue.calls ++
          [QueueCall.Get, QueueCall.Forget (Obj.str missingKey),
            QueueCall.Done (Obj.str missingKey)]) :=
  lookup_failure_requeues workload scenarioInformers pending missingKey taken (by decide)

/-- C7 on the code: a key that the lister cannot resolve is put back by `Add`, not
by `AddRateLimited`. After one failure, and after a second failure of the same
key, the calls made on the queue are `Get`, `Add`, `Done`, the key is ready
again at once, nothing waits for a backoff delay and the limiter has recorded no
requeue of the key; the rate-limited add would have left the key waiting with one
requeue recorded. -/
theorem requeue_not_rate_limited :
    (processNextEvent workload scenarioInformers pending).map
        (fun p => (p.goOn, p.controller.eventQueue.calls, p.controller.eventQueue.queue,
          p.controller.eventQueue.waiting,
          p.controller.eventQueue.NumRequeues (Obj.str missingKey))) =
      some (true,
        [QueueCall.Add (Obj.str missingKey), QueueCall.Get,
          QueueCall.Add (Obj.str missingKey), QueueCall.Done (Obj.str missingKey)],
        [Obj.str missingKey], [], 0) ∧
    ((processNextEvent workload scenarioInformers pending).bind
        (fun p => processNextEvent workload scenarioInformers p.controller)).map
        (fun p => (p.goOn, p.controller.eventQueue.calls, p.controller.eventQueue.queue,
          p.controller.eventQueue.waiting,
          p.controller.eventQueue.NumRequeues (Obj.str missingKey))) =
      some (true,
        [QueueCall.Add (Obj.str missingKey), QueueCall.Get,
          QueueCall.Add (Obj.str missingKey), QueueCall.Done (Obj.str missingKey),
          QueueCall.Get, QueueCall.Add (Obj.str missingKey),
          QueueCall.Done (Obj.str missingKey)],
        [Obj.str missingKey], [], 0) ∧
    ((taken.AddRateLimited (Obj.str missingKey)).Done (Obj.str missingKey)).queue = [] ∧
    ((taken.AddRateLimited (Obj.str missingKey)).Done (Obj.str missingKey)).waiting =
      [Obj.str missingKey] ∧
    ((taken.AddRateLimited (Obj.str missingKey)).Done (Obj.str missingKey)).NumRequeues
      (Obj.str missingKey) = 1 := by
  refine ⟨rfl, rfl, rfl, rfl, rfl⟩

/-- C8 on the code: when `Run` returns, after a cache-sync failure or after the
cancellation, the only call it has made on the queue is the query `ShuttingDown`:
the shutting-down flag is still unset and a `Get` on the drained queue blocks
instead of returning the shutdown flag, as it would after `ShutDown`. -/
theorem Run_leaves_queue_open :
    Run false none true (Controller.new 3 false) =
        some (RunOutcome.returned (some Error.cacheSync),
          { Controller.new 3 false with
            eventQueue := { Queue.empty with calls := [QueueCall.ShuttingDown] } }) ∧
      Run true none true (Controller.new 3 false) =
        some (RunOutcome.returned none,
          { Controller.new 3 false with
            eventQueue := { Queue.empty with calls := [QueueCall.ShuttingDown] } }) ∧
      ({ Queue.empty with calls := [QueueCall.ShuttingDown] } : Queue).shuttingDown = false ∧
      ({ Queue.empty with calls := [QueueCall.ShuttingDown] } : Queue).Get = none ∧
      (Queue.empty.ShutDown.Get).map (fun r => r.2.1) = some true := by
  decide

end StressTest
